import Mathlib

/-!
Verification of the "meandering triangles" contour-extraction core of the
salamivg repository (src/lib/algorithms/walking-triangles.ts, with helpers
from src/lib/util.ts and src/lib/vector2.ts).

The embedding models JavaScript numbers as exact rationals (ℚ).  All
comparisons performed by the source (`<`, `>=`) are exact on rationals, so
the control flow of the embedding coincides with the source's control flow
on finite inputs.  The one JS operation that has no direct rational
counterpart is `Math.sqrt` inside `Vector2.distanceTo`; the single use site
(`isNear`, which tests `sqrt(dx^2+dy^2) < nearness`) is rendered by the
equivalent exact test `0 < nearness ∧ dx^2 + dy^2 < nearness^2`
(for `nearness ≤ 0` the square root, being nonnegative, is never strictly
below `nearness`; for `nearness > 0` squaring both sides is an order
isomorphism on nonnegative reals).

The two `while` loops of `connectContourSegments` are rendered as
structurally recursive functions with an explicit fuel parameter; the fuel
supplied at each call site is the length of the working segment list, which
is proved sufficient (each inner iteration removes exactly one segment, each
outer iteration pops one) in the termination theorem below.
-/

namespace Salamivg

/-- 2D point (src/lib/vector2.ts, class Vector2), coordinates as exact rationals. -/
structure Vector2 where
  x : ℚ
  y : ℚ
deriving DecidableEq, Repr

instance : Inhabited Vector2 := ⟨⟨0, 0⟩⟩

/-- 3D point (src/lib/vector3.ts): two planar coordinates and a scalar height z. -/
structure Vector3 where
  x : ℚ
  y : ℚ
  z : ℚ
deriving DecidableEq, Repr

instance : Inhabited Vector3 := ⟨⟨0, 0, 0⟩⟩

/-- `IntersectingLine = [Vector2, Vector2]` — a JS array holding the two
crossing points of one triangle.  Modelled as a list because the source
feeds the very same array into the stitcher as a growing polyline. -/
abbrev IntersectingLine := List Vector2

/-- `Triangle3 = [Vector3, Vector3, Vector3]`. -/
structure Triangle3 where
  v0 : Vector3
  v1 : Vector3
  v2 : Vector3
deriving DecidableEq, Repr

/-- The three vertices of a triangle, in source order. -/
def vertices (t : Triangle3) : List Vector3 := [t.v0, t.v1, t.v2]

/-- `Contour = { line: IntersectingLine, threshold: number }`. -/
structure Contour where
  line : IntersectingLine
  threshold : ℚ
deriving DecidableEq

/-- `clamp` from src/lib/util.ts: `Math.max(min, Math.min(max, x))`. -/
def clamp (lo hi x : ℚ) : ℚ := max lo (min hi x)

/-- `map` from src/lib/util.ts (linear domain mapping, openrndr style).
`shouldClamp` defaults to false, as at the call site in `contoursFromTIN`
(the optional argument is omitted there). -/
def jsmap (beforeLeft beforeRight afterLeft afterRight value : ℚ)
    (shouldClamp : Bool := false) : ℚ :=
  let db := beforeRight - beforeLeft
  let da := afterRight - afterLeft
  if db ≠ 0 then
    let n := (value - beforeLeft) / db
    afterLeft + (if shouldClamp then clamp 0 1 n else n) * da
  else
    let n := value - beforeLeft
    afterLeft + (if shouldClamp then clamp 0 1 n else n) * da

/-- `array` from src/lib/util.ts: `new Array(n).fill(0).map((_, i) => i)`.
`new Array(n)` throws a RangeError (re-thrown as an Error by `array`) when
`n` is not a valid array length; on integer arguments that means `n < 0`.
The count is modelled as an integer (`contoursFromTIN` documents
`thresholdCount` as an integer). -/
def array (n : ℤ) : Except String (List ℤ) :=
  if n < 0 then .error "Could not create an array"
  else .ok ((List.range n.toNat).map Int.ofNat)

/-- The filter `(v) => v.z < threshold` in `contourLine`. -/
def belowOf (t : Triangle3) (threshold : ℚ) : List Vector3 :=
  (vertices t).filter (fun v => v.z < threshold)

/-- The filter `(v) => v.z >= threshold` in `contourLine`. -/
def aboveOf (t : Triangle3) (threshold : ℚ) : List Vector3 :=
  (vertices t).filter (fun v => threshold ≤ v.z)

/-- `below.length < above.length ? below : above` in `contourLine`. -/
def minorityOf (t : Triangle3) (threshold : ℚ) : List Vector3 :=
  if (belowOf t threshold).length < (aboveOf t threshold).length
  then belowOf t threshold else aboveOf t threshold

/-- `below.length > above.length ? below : above` in `contourLine`. -/
def majorityOf (t : Triangle3) (threshold : ℚ) : List Vector3 :=
  if (aboveOf t threshold).length < (belowOf t threshold).length
  then belowOf t threshold else aboveOf t threshold

/-- The loop body of `contourLine`: `howFar = (threshold - vMax.z) / (vMin.z - vMax.z)`,
crossing point `vec2(howFar*vMin.x + (1-howFar)*vMax.x, howFar*vMin.y + (1-howFar)*vMax.y)`. -/
def crossingPoint (vMin vMax : Vector3) (threshold : ℚ) : Vector2 :=
  let howFar := (threshold - vMax.z) / (vMin.z - vMax.z)
  ⟨howFar * vMin.x + (1 - howFar) * vMax.x,
   howFar * vMin.y + (1 - howFar) * vMax.y⟩

/-- `contourLine(vertices, threshold)` from walking-triangles.ts.
In the non-null branch the partitions split 1-vs-2, so `minority[0]`,
`majority[0]`, `majority[1]` are in bounds; the `getD`/`headD` defaults are
never reached there. -/
def contourLine (t : Triangle3) (threshold : ℚ) : Option Contour :=
  if (aboveOf t threshold).length = 0 ∨ (belowOf t threshold).length = 0 then
    none
  else
    let vMin := (minorityOf t threshold).headD default
    let p0 := crossingPoint vMin ((majorityOf t threshold).getD 0 default) threshold
    let p1 := crossingPoint vMin ((majorityOf t threshold).getD 1 default) threshold
    some { line := [p0, p1], threshold := threshold }

/-- `calcContour(threshold, tin)`: map every triangle through `contourLine`
and keep the non-null results (`.filter(Boolean)`). -/
def calcContour (threshold : ℚ) (tin : List Triangle3) : List Contour :=
  (tin.map (fun triangle => contourLine triangle threshold)).filterMap id

/-- `isNear(p1, p2, nearness)`: `p1.distanceTo(p2) < nearness` where
`distanceTo` is `Math.sqrt((p2.x-p1.x)^2 + (p2.y-p1.y)^2)`.  Rendered by the
exact equivalent square comparison (see the file header). -/
def isNear (p1 p2 : Vector2) (nearness : ℚ) : Bool :=
  decide (0 < nearness ∧ (p2.x - p1.x) ^ 2 + (p2.y - p1.y) ^ 2 < nearness ^ 2)

/-- `Array.prototype.findIndex`, as an `Option ℕ` (JS returns -1 ↦ `none`). -/
def findIndex {α : Type} (p : α → Bool) : List α → Option ℕ
  | [] => none
  | a :: l => if p a then some 0 else (findIndex p l).map (· + 1)

/-- The predicate of the `findIndex` call in the inner stitching loop:
either endpoint of `segment` is near either end of `line`. -/
def segMatches (nearness : ℚ) (line : List Vector2) (segment : IntersectingLine) : Bool :=
  isNear (line.headD default) (segment.getD 0 default) nearness ||
  isNear (line.headD default) (segment.getD 1 default) nearness ||
  isNear (line.getLastD default) (segment.getD 0 default) nearness ||
  isNear (line.getLastD default) (segment.getD 1 default) nearness

/-- The four-way `if/else if` merge in the inner stitching loop:
unshift or push the far endpoint of the matched segment. -/
def mergeLine (nearness : ℚ) (line : List Vector2) (m : IntersectingLine) : List Vector2 :=
  let m0 := m.getD 0 default
  let m1 := m.getD 1 default
  if isNear m0 (line.headD default) nearness then m1 :: line
  else if isNear m1 (line.headD default) nearness then m0 :: line
  else if isNear m0 (line.getLastD default) nearness then line ++ [m1]
  else if isNear m1 (line.getLastD default) nearness then line ++ [m0]
  else line

/-- The inner `while (true)` loop of `connectContourSegments`: repeatedly
find the first matching segment, merge it into the line and splice it out of
the working list; stop when no segment matches.  The fuel parameter bounds
the iteration count; callers pass the working-list length, which suffices
because every iteration removes exactly one segment (proved below). -/
def extendLine (nearness : ℚ) : ℕ → List Vector2 → List IntersectingLine →
    List Vector2 × List IntersectingLine
  | 0, line, segments => (line, segments)
  | fuel + 1, line, segments =>
    match findIndex (fun segment => segMatches nearness line segment) segments with
    | none => (line, segments)
    | some i =>
      extendLine nearness fuel (mergeLine nearness line (segments.getD i default))
        (segments.eraseIdx i)

/-- The outer `while (segments.length > 0)` loop of `connectContourSegments`
for one threshold group: pop the last segment as a fresh line seed, extend it
to completion, and keep it only when it has strictly more than 5 points.
Completed lines are appended to `lines` in completion order. -/
def stitchThreshold (nearness : ℚ) : ℕ → List IntersectingLine → List (List Vector2) →
    List (List Vector2)
  | 0, _, lines => lines
  | fuel + 1, segments, lines =>
    match segments.getLast? with
    | none => lines
    | some line =>
      let rest := segments.dropLast
      let p := extendLine nearness rest.length line rest
      stitchThreshold nearness fuel p.2
        (if 5 < p.1.length then lines ++ [p.1] else lines)

/-- One step of the threshold-partitioning loop: `contourMap.get(th).push(line)`
when the key exists (values keep their per-key push order, keys keep their
first-insertion position), `contourMap.set(th, [line])` otherwise (new keys
are appended at the end, matching JS `Map` insertion order). -/
def addToGroup : List (ℚ × List IntersectingLine) → ℚ → IntersectingLine →
    List (ℚ × List IntersectingLine)
  | [], th, s => [(th, [s])]
  | (k, v) :: rest, th, s =>
    if k = th then (k, v ++ [s]) :: rest else (k, v) :: addToGroup rest th s

/-- The `for` loop of `connectContourSegments` that partitions the incoming
contour segments by threshold, as an insertion-ordered association list
(the JS `Map<number, IntersectingLine[]>`). -/
def partitionByThreshold (contours : List Contour) : List (ℚ × List IntersectingLine) :=
  contours.foldl (fun m c => addToGroup m c.threshold c.line) []

/-- `connectContourSegments(contours, nearness)`: partition by threshold,
stitch each group independently, and record a key in the result map only
when at least one polyline of that group survives the length filter. -/
def connectContourSegments (contours : List Contour) (nearness : ℚ) :
    List (ℚ × List (List Vector2)) :=
  (partitionByThreshold contours).filterMap (fun g =>
    let ls := stitchThreshold nearness g.2.length g.2 []
    if ls = [] then none else some (g.1, ls))

/-- The threshold sequence built by `contoursFromTIN`:
`array(thresholdCount).map((i) => map(0, thresholdCount - 1, zMin, zMax, i))`
(for a non-negative count, on which `array` succeeds). -/
def thresholdsOf (thresholdCount : ℤ) (zMin zMax : ℚ) : List ℚ :=
  (List.range thresholdCount.toNat).map
    (fun i : ℕ => jsmap 0 ((thresholdCount : ℚ) - 1) zMin zMax (i : ℚ))

/-- `contoursFromTIN` from walking-triangles.ts.  The `Except` channel
carries the error thrown by `array` when the threshold count is not a valid
array length; in every other respect the function is the source's pure
pipeline: thresholds → flat-mapped per-triangle segments → stitcher. -/
def contoursFromTIN (tin : List Triangle3) (thresholdCount : ℤ)
    (zMin zMax nearnessThreshold : ℚ) :
    Except String (List (ℚ × List (List Vector2))) :=
  match array thresholdCount with
  | .error e => .error e
  | .ok idxs =>
    let thresholds := idxs.map
      (fun i : ℤ => jsmap 0 ((thresholdCount : ℚ) - 1) zMin zMax (i : ℚ))
    let segments := thresholds.flatMap (fun threshold => calcContour threshold tin)
    .ok (connectContourSegments segments nearnessThreshold)

lemma aboveOf_length_eq_zero_iff (t : Triangle3) (th : ℚ) :
    (aboveOf t th).length = 0 ↔ ∀ v ∈ vertices t, v.z < th := by
  rw [List.length_eq_zero]
  simp [aboveOf, List.filter_eq_nil_iff]

lemma belowOf_length_eq_zero_iff (t : Triangle3) (th : ℚ) :
    (belowOf t th).length = 0 ↔ ∀ v ∈ vertices t, th ≤ v.z := by
  rw [List.length_eq_zero]
  simp [belowOf, List.filter_eq_nil_iff]

/-- Claim C2: `contourLine` returns `none` exactly when all three vertex
heights lie on the same side of the threshold: all strictly below it, or all
greater than or equal to it. -/
theorem contourLine_none_iff (t : Triangle3) (th : ℚ) :
    contourLine t th = none ↔
      (∀ v ∈ vertices t, v.z < th) ∨ (∀ v ∈ vertices t, th ≤ v.z) := by
  have hiff := or_congr (aboveOf_length_eq_zero_iff t th) (belowOf_length_eq_zero_iff t th)
  constructor
  · intro h
    by_cases hcond : (aboveOf t th).length = 0 ∨ (belowOf t th).length = 0
    · exact hiff.mp hcond
    · rw [contourLine, if_neg hcond] at h
      exact absurd h (by simp)
  · intro h
    rw [contourLine, if_pos (hiff.mpr h)]

/-- Case analysis on a successful `contourLine` call: the vertex partition is
1-vs-2, the minority vertex lies strictly on the opposite side of the
threshold from both majority vertices, and the returned contour is the pair
of interpolated crossing points. -/
lemma contourLine_branches (t : Triangle3) (th : ℚ) (c : Contour)
    (h : contourLine t th = some c) :
    ∃ vMin vA vB : Vector3,
      minorityOf t th = [vMin] ∧ majorityOf t th = [vA, vB] ∧
      vMin ∈ vertices t ∧ vA ∈ vertices t ∧ vB ∈ vertices t ∧
      ((vMin.z < th ∧ th ≤ vA.z ∧ th ≤ vB.z) ∨ (th ≤ vMin.z ∧ vA.z < th ∧ vB.z < th)) ∧
      c = { line := [crossingPoint vMin vA th, crossingPoint vMin vB th],
            threshold := th } := by
  rcases lt_or_le t.v0.z th with h0 | h0 <;>
    rcases lt_or_le t.v1.z th with h1 | h1 <;>
      rcases lt_or_le t.v2.z th with h2 | h2
  · -- all three strictly below: above is empty, contourLine is none
    rw [contourLine, if_pos (Or.inl ((aboveOf_length_eq_zero_iff t th).mpr
      (by simp [vertices, h0, h1, h2])))] at h
    exact absurd h (by simp)
  · -- v0, v1 below; v2 above
    have hb : belowOf t th = [t.v0, t.v1] := by
      simp [belowOf, vertices, h0, h1, h2.not_lt]
    have ha : aboveOf t th = [t.v2] := by
      simp [aboveOf, vertices, h0.not_le, h1.not_le, h2]
    have hmin : minorityOf t th = [t.v2] := by simp [minorityOf, hb, ha]
    have hmaj : majorityOf t th = [t.v0, t.v1] := by simp [majorityOf, hb, ha]
    rw [contourLine, if_neg (by simp [hb, ha]), hmin, hmaj] at h
    refine ⟨t.v2, t.v0, t.v1, hmin, hmaj, by simp [vertices], by simp [vertices],
      by simp [vertices], Or.inr ⟨h2, h0, h1⟩, ?_⟩
    simpa using (Option.some.inj h).symm
  · -- v0, v2 below; v1 above
    have hb : belowOf t th = [t.v0, t.v2] := by
      simp [belowOf, vertices, h0, h1.not_lt, h2]
    have ha : aboveOf t th = [t.v1] := by
      simp [aboveOf, vertices, h0.not_le, h1, h2.not_le]
    have hmin : minorityOf t th = [t.v1] := by simp [minorityOf, hb, ha]
    have hmaj : majorityOf t th = [t.v0, t.v2] := by simp [majorityOf, hb, ha]
    rw [contourLine, if_neg (by simp [hb, ha]), hmin, hmaj] at h
    refine ⟨t.v1, t.v0, t.v2, hmin, hmaj, by simp [vertices], by simp [vertices],
      by simp [vertices], Or.inr ⟨h1, h0, h2⟩, ?_⟩
    simpa using (Option.some.inj h).symm
  · -- v0 below; v1, v2 above
    have hb : belowOf t th = [t.v0] := by
      simp [belowOf, vertices, h0, h1.not_lt, h2.not_lt]
    have ha : aboveOf t th = [t.v1, t.v2] := by
      simp [aboveOf, vertices, h0.not_le, h1, h2]
    have hmin : minorityOf t th = [t.v0] := by simp [minorityOf, hb, ha]
    have hmaj : majorityOf t th = [t.v1, t.v2] := by simp [majorityOf, hb, ha]
    rw [contourLine, if_neg (by simp [hb, ha]), hmin, hmaj] at h
    refine ⟨t.v0, t.v1, t.v2, hmin, hmaj, by simp [vertices], by simp [vertices],
      by simp [vertices], Or.inl ⟨h0, h1, h2⟩, ?_⟩
    simpa using (Option.some.inj h).symm
  · -- v1, v2 below; v0 above
    have hb : belowOf t th = [t.v1, t.v2] := by
      simp [belowOf, vertices, h0.not_lt, h1, h2]
    have ha : aboveOf t th = [t.v0] := by
      simp [aboveOf, vertices, h0, h1.not_le, h2.not_le]
    have hmin : minorityOf t th = [t.v0] := by simp [minorityOf, hb, ha]
    have hmaj : majorityOf t th = [t.v1, t.v2] := by simp [majorityOf, hb, ha]
    rw [contourLine, if_neg (by simp [hb, ha]), hmin, hmaj] at h
    refine ⟨t.v0, t.v1, t.v2, hmin, hmaj, by simp [vertices], by simp [vertices],
      by simp [vertices], Or.inr ⟨h0, h1, h2⟩, ?_⟩
    simpa using (Option.some.inj h).symm
  · -- v1 below; v0, v2 above
    have hb : belowOf t th = [t.v1] := by
      simp [belowOf, vertices, h0.not_lt, h1, h2.not_lt]
    have ha : aboveOf t th = [t.v0, t.v2] := by
      simp [aboveOf, vertices, h0, h1.not_le, h2]
    have hmin : minorityOf t th = [t.v1] := by simp [minorityOf, hb, ha]
    have hmaj : majorityOf t th = [t.v0, t.v2] := by simp [majorityOf, hb, ha]
    rw [contourLine, if_neg (by simp [hb, ha]), hmin, hmaj] at h
    refine ⟨t.v1, t.v0, t.v2, hmin, hmaj, by simp [vertices], by simp [vertices],
      by simp [vertices], Or.inl ⟨h1, h0, h2⟩, ?_⟩
    simpa using (Option.some.inj h).symm
  · -- v2 below; v0, v1 above
    have hb : belowOf t th = [t.v2] := by
      simp [belowOf, vertices, h0.not_lt, h1.not_lt, h2]
    have ha : aboveOf t th = [t.v0, t.v1] := by
      simp [aboveOf, vertices, h0, h1, h2.not_le]
    have hmin : minorityOf t th = [t.v2] := by simp [minorityOf, hb, ha]
    have hmaj : majorityOf t th = [t.v0, t.v1] := by simp [majorityOf, hb, ha]
    rw [contourLine, if_neg (by simp [hb, ha]), hmin, hmaj] at h
    refine ⟨t.v2, t.v0, t.v1, hmin, hmaj, by simp [vertices], by simp [vertices],
      by simp [vertices], Or.inl ⟨h2, h0, h1⟩, ?_⟩
    simpa using (Option.some.inj h).symm
  · -- all three at or above: below is empty, contourLine is none
    rw [contourLine, if_pos (Or.inr ((belowOf_length_eq_zero_iff t th).mpr
      (by simp [vertices, h0, h1, h2])))] at h
    exact absurd h (by simp)

/-- The interpolation fraction lies in `[0,1]` when the minority vertex is
strictly below the threshold and the majority vertex at or above it. -/
lemma howFar_unit_below (a b th : ℚ) (ha : a < th) (hb : th ≤ b) :
    0 ≤ (th - b) / (a - b) ∧ (th - b) / (a - b) ≤ 1 := by
  have hd : a - b < 0 := by linarith
  constructor
  · exact div_nonneg_of_nonpos (by linarith) hd.le
  · rw [div_le_one_iff]
    exact Or.inr (Or.inr ⟨hd, by linarith⟩)

/-- The interpolation fraction lies in `[0,1]` when the minority vertex is at
or above the threshold and the majority vertex strictly below it. -/
lemma howFar_unit_above (a b th : ℚ) (ha : th ≤ a) (hb : b < th) :
    0 ≤ (th - b) / (a - b) ∧ (th - b) / (a - b) ≤ 1 := by
  have hd : 0 < a - b := by linarith
  exact ⟨div_nonneg (by linarith) hd.le, (div_le_one hd).mpr (by linarith)⟩

/-- Claim C3: a successful `contourLine` result has exactly 2 points, and
each point is a convex combination (fraction in `[0,1]`) of two vertices of
the source triangle, hence lies on an edge of that triangle. -/
theorem contourLine_some_shape (t : Triangle3) (th : ℚ) (c : Contour)
    (h : contourLine t th = some c) :
    c.line.length = 2 ∧
    ∀ p ∈ c.line, ∃ u ∈ vertices t, ∃ w ∈ vertices t, ∃ s : ℚ,
      0 ≤ s ∧ s ≤ 1 ∧ p.x = s * u.x + (1 - s) * w.x ∧ p.y = s * u.y + (1 - s) * w.y := by
  obtain ⟨vMin, vA, vB, _, _, hv1, hv2, hv3, hside, hc⟩ := contourLine_branches t th c h
  subst hc
  refine ⟨rfl, ?_⟩
  intro p hp
  rcases List.mem_pair.mp hp with rfl | rfl
  · rcases hside with ⟨hm, hA, _⟩ | ⟨hm, hA, _⟩
    · obtain ⟨hs0, hs1⟩ := howFar_unit_below vMin.z vA.z th hm hA
      exact ⟨vMin, hv1, vA, hv2, _, hs0, hs1, rfl, rfl⟩
    · obtain ⟨hs0, hs1⟩ := howFar_unit_above vMin.z vA.z th hm hA
      exact ⟨vMin, hv1, vA, hv2, _, hs0, hs1, rfl, rfl⟩
  · rcases hside with ⟨hm, _, hB⟩ | ⟨hm, _, hB⟩
    · obtain ⟨hs0, hs1⟩ := howFar_unit_below vMin.z vB.z th hm hB
      exact ⟨vMin, hv1, vB, hv3, _, hs0, hs1, rfl, rfl⟩
    · obtain ⟨hs0, hs1⟩ := howFar_unit_above vMin.z vB.z th hm hB
      exact ⟨vMin, hv1, vB, hv3, _, hs0, hs1, rfl, rfl⟩

/-- The worked example of the spec: triangle `(0,0,0), (10,0,10), (0,10,10)`. -/
def workedTriangle : Triangle3 := ⟨⟨0, 0, 0⟩, ⟨10, 0, 10⟩, ⟨0, 10, 10⟩⟩

/-- At threshold 5 the worked triangle yields the segment `[(5,0), (0,5)]`. -/
lemma workedTriangle_eval :
    contourLine workedTriangle 5 = some ⟨[⟨5, 0⟩, ⟨0, 5⟩], 5⟩ := by
  norm_num [contourLine, belowOf, aboveOf, minorityOf, majorityOf, vertices,
    crossingPoint, workedTriangle]

theorem contourLine_some_shape_witness :
    contourLine workedTriangle 5 = some ⟨[⟨5, 0⟩, ⟨0, 5⟩], 5⟩ ∧
    ((⟨[⟨5, 0⟩, ⟨0, 5⟩], 5⟩ : Contour).line.length = 2 ∧
      ∀ p ∈ (⟨[⟨5, 0⟩, ⟨0, 5⟩], 5⟩ : Contour).line,
        ∃ u ∈ vertices workedTriangle, ∃ w ∈ vertices workedTriangle, ∃ s : ℚ,
          0 ≤ s ∧ s ≤ 1 ∧ p.x = s * u.x + (1 - s) * w.x ∧
            p.y = s * u.y + (1 - s) * w.y) :=
  ⟨workedTriangle_eval, contourLine_some_shape workedTriangle 5 _ workedTriangle_eval⟩

/-- Claim C8 counterexample: the hazard condition claimed by the spec can
never arise — there is no triangle/threshold with a non-null result whose
minority vertex height equals a majority vertex height, because the strict
`< / ≥` partition puts them strictly on opposite sides of the threshold. -/
theorem contourLine_flat_edge_cex :
    ¬ ∃ (t : Triangle3) (th : ℚ) (c : Contour), contourLine t th = some c ∧
      (((minorityOf t th).headD default).z = ((majorityOf t th).getD 0 default).z ∨
       ((minorityOf t th).headD default).z = ((majorityOf t th).getD 1 default).z) := by
  rintro ⟨t, th, c, h, hz⟩
  obtain ⟨vMin, vA, vB, hmin, hmaj, _, _, _, hside, _⟩ := contourLine_branches t th c h
  rw [hmin, hmaj] at hz
  simp only [List.headD_cons, List.getD_cons_zero, List.getD_cons_succ] at hz
  rcases hside with ⟨hm, hA, hB⟩ | ⟨hm, hA, hB⟩ <;> rcases hz with hz | hz <;> linarith

/-- Claim C8 (amended): whenever `contourLine` returns a segment, both
interpolation denominators `minority[0].z - vMax.z` are nonzero, so the
unguarded division always produces a finite fraction; the flat-edge
zero-denominator hazard described by the spec is unreachable in this code. -/
theorem contourLine_denominator_nonzero (t : Triangle3) (th : ℚ) (c : Contour)
    (h : contourLine t th = some c) :
    ((minorityOf t th).headD default).z - ((majorityOf t th).getD 0 default).z ≠ 0 ∧
    ((minorityOf t th).headD default).z - ((majorityOf t th).getD 1 default).z ≠ 0 := by
  obtain ⟨vMin, vA, vB, hmin, hmaj, _, _, _, hside, _⟩ := contourLine_branches t th c h
  rw [hmin, hmaj]
  simp only [List.headD_cons, List.getD_cons_zero, List.getD_cons_succ]
  rcases hside with ⟨hm, hA, hB⟩ | ⟨hm, hA, hB⟩ <;>
    exact ⟨sub_ne_zero.mpr (by linarith), sub_ne_zero.mpr (by linarith)⟩

theorem contourLine_denominator_nonzero_witness :
    ((minorityOf workedTriangle 5).headD default).z -
      ((majorityOf workedTriangle 5).getD 0 default).z ≠ 0 ∧
    ((minorityOf workedTriangle 5).headD default).z -
      ((majorityOf workedTriangle 5).getD 1 default).z ≠ 0 :=
  contourLine_denominator_nonzero workedTriangle 5 _ workedTriangle_eval

/-- `map(0, br, al, ar, v)` with a nonzero input span is plain linear
interpolation. -/
lemma jsmap_eval (br al ar v : ℚ) (h : br ≠ 0) :
    jsmap 0 br al ar v = al + v / br * (ar - al) := by
  simp [jsmap, h]

/-- For a non-negative count, `contoursFromTIN` succeeds and runs the pure
pipeline over `thresholdsOf`. -/
lemma contoursFromTIN_ok (tin : List Triangle3) (tc : ℤ) (h : 0 ≤ tc)
    (zMin zMax near : ℚ) :
    contoursFromTIN tin tc zMin zMax near =
      .ok (connectContourSegments
        ((thresholdsOf tc zMin zMax).flatMap (fun th => calcContour th tin)) near) := by
  rw [contoursFromTIN, array, if_neg (not_lt.mpr h)]
  simp [thresholdsOf, List.map_map, Function.comp_def]

/-- Claim C5: the threshold sequence built by `contoursFromTIN` has exactly
`thresholdCount` entries, linearly interpolated across `[zMin, zMax]`
inclusive of both ends; a count of one yields `[zMin]`; equal bounds yield a
constant sequence; the sequence is strictly ascending when `zMin < zMax`;
and the pipeline never fails on such inputs. -/
theorem thresholds_spec (tc : ℤ) (zMin zMax : ℚ) (h1 : 1 ≤ tc) :
    (thresholdsOf tc zMin zMax).length = tc.toNat ∧
    (2 ≤ tc → ∀ i : ℕ, i < tc.toNat →
      (thresholdsOf tc zMin zMax).getD i 0 =
        zMin + (i : ℚ) / ((tc : ℚ) - 1) * (zMax - zMin)) ∧
    (tc = 1 → thresholdsOf tc zMin zMax = [zMin]) ∧
    (zMin = zMax → ∀ x ∈ thresholdsOf tc zMin zMax, x = zMin) ∧
    (zMin < zMax → (thresholdsOf tc zMin zMax).Pairwise (· < ·)) ∧
    (∀ tin near, ∃ r, contoursFromTIN tin tc zMin zMax near = Except.ok r) := by
  refine ⟨by simp [thresholdsOf], ?_, ?_, ?_, ?_, ?_⟩
  · intro h2 i hi
    have hd : (0 : ℚ) < (tc : ℚ) - 1 := by
      have : (2 : ℚ) ≤ (tc : ℚ) := by exact_mod_cast h2
      linarith
    have hlen : i < (thresholdsOf tc zMin zMax).length := by
      simpa [thresholdsOf] using hi
    rw [List.getD_eq_getElem _ _ hlen]
    simp only [thresholdsOf, List.getElem_map, List.getElem_range]
    rw [jsmap_eval _ _ _ _ (ne_of_gt hd)]
  · intro h
    subst h
    norm_num [thresholdsOf, jsmap, List.range_succ]
  · intro heq x hx
    subst heq
    obtain ⟨i, _, rfl⟩ := List.mem_map.mp hx
    simp [jsmap]
  · intro hlt
    rcases eq_or_lt_of_le h1 with h1' | h2
    · rw [(by simp [thresholdsOf, ← h1', List.range_succ, jsmap] :
        thresholdsOf tc zMin zMax = [zMin])]
      exact List.pairwise_singleton _ _
    · have h2 : 2 ≤ tc := h2
      have hd : (0 : ℚ) < (tc : ℚ) - 1 := by
        have : (2 : ℚ) ≤ (tc : ℚ) := by exact_mod_cast h2
        linarith
      refine List.Pairwise.map _ ?_ (List.pairwise_lt_range _)
      intro a b hab
      rw [jsmap_eval _ _ _ _ (ne_of_gt hd), jsmap_eval _ _ _ _ (ne_of_gt hd)]
      have hcast : (a : ℚ) < (b : ℚ) := by exact_mod_cast hab
      have hm : (0 : ℚ) < zMax - zMin := by linarith
      gcongr
  · intro tin near
    exact ⟨_, contoursFromTIN_ok tin tc (by linarith) zMin zMax near⟩

theorem thresholds_spec_witness :
    (thresholdsOf 3 0 1).length = (3 : ℤ).toNat ∧
    (thresholdsOf 3 0 1).Pairwise (· < ·) := by
  have h := thresholds_spec 3 0 1 (by norm_num)
  exact ⟨h.1, h.2.2.2.2.1 (by norm_num)⟩

/-- A threshold count of zero is below the documented minimum of 1, yet the
pipeline silently succeeds with an empty result map. -/
lemma contoursFromTIN_zero_count_eval :
    contoursFromTIN [] 0 (-1) 1 1 = .ok [] := by
  rw [contoursFromTIN_ok [] 0 le_rfl (-1) 1 1]
  simp [thresholdsOf, connectContourSegments, partitionByThreshold]

/-- Claim C7 counterexample: `thresholdCount = 0` is an invalid configuration
(`0 < 1`), yet `contoursFromTIN` does not reject it — it returns a normal
(empty) result instead of reporting an error. -/
theorem contoursFromTIN_no_validation_cex :
    (0 : ℤ) < 1 ∧ contoursFromTIN [] 0 (-1) 1 1 = .ok [] :=
  ⟨by norm_num, contoursFromTIN_zero_count_eval⟩

/-- Claim C7 (amended): `contoursFromTIN` performs no configuration
validation.  Only a negative `thresholdCount` produces an error, and that
error comes from `array` failing to construct the index array — not from a
boundary check; `thresholdCount = 0` (below the documented minimum) silently
yields an empty map, and a negative `nearnessThreshold` is accepted and the
computation proceeds to a normal result. -/
theorem contoursFromTIN_validation :
    (∀ (tin : List Triangle3) (tc : ℤ) (zMin zMax near : ℚ), tc < 0 →
      contoursFromTIN tin tc zMin zMax near = .error "Could not create an array") ∧
    contoursFromTIN [] 0 (-1) 1 1 = .ok [] ∧
    (∀ (tin : List Triangle3) (tc : ℤ) (zMin zMax near : ℚ), 0 ≤ tc → near < 0 →
      ∃ r, contoursFromTIN tin tc zMin zMax near = .ok r) := by
  refine ⟨?_, contoursFromTIN_zero_count_eval, ?_⟩
  · intro tin tc zMin zMax near h
    rw [contoursFromTIN, array, if_pos h]
  · intro tin tc zMin zMax near htc _
    exact ⟨_, contoursFromTIN_ok tin tc htc zMin zMax near⟩

theorem contoursFromTIN_validation_witness :
    contoursFromTIN [] (-1) 0 1 1 = .error "Could not create an array" ∧
    ∃ r, contoursFromTIN [] 2 0 1 (-5) = .ok r :=
  ⟨contoursFromTIN_validation.1 [] (-1) 0 1 1 (by norm_num),
   contoursFromTIN_validation.2.2 [] 2 0 1 (-5) (by norm_num) (by norm_num)⟩

lemma findIndex_lt_length {α : Type} (p : α → Bool) :
    ∀ (l : List α) (i : ℕ), findIndex p l = some i → i < l.length := by
  intro l
  induction l with
  | nil => intro i h; simp [findIndex] at h
  | cons a l ih =>
    intro i h
    rw [findIndex] at h
    by_cases hp : p a
    · rw [if_pos hp] at h
      obtain rfl : (0 : ℕ) = i := Option.some.inj h
      simp
    · rw [if_neg hp] at h
      obtain ⟨j, hj, rfl⟩ := Option.map_eq_some'.mp h
      have := ih j hj
      simp
      omega

lemma findIndex_none_of_all {α : Type} (p : α → Bool) :
    ∀ l : List α, (∀ a ∈ l, p a = false) → findIndex p l = none := by
  intro l
  induction l with
  | nil => intro _; rfl
  | cons a l ih =>
    intro h
    rw [findIndex, if_neg (by simp [h a (by simp)]), ih (fun x hx => h x (by simp [hx]))]
    rfl

lemma getD_mem {α : Type} [Inhabited α] (l : List α) (i : ℕ) (h : i < l.length) :
    l.getD i default ∈ l := by
  rw [List.getD_eq_getElem _ _ h]
  exact List.getElem_mem h

/-- When no remaining segment matches, the inner loop completes the line
unchanged, whatever the fuel. -/
lemma extendLine_none (near : ℚ) (line : List Vector2) (segs : List IntersectingLine)
    (h : findIndex (fun s => segMatches near line s) segs = none) :
    ∀ fuel, extendLine near fuel line segs = (line, segs) := by
  intro fuel
  cases fuel with
  | zero => rfl
  | succ f => rw [extendLine, h]

/-- One iteration of the inner loop with a match at index `i`: merge the
matched segment into the line and splice it out of the working list. -/
lemma extendLine_succ_some (near : ℚ) (fuel : ℕ) (line : List Vector2)
    (segs : List IntersectingLine) (i : ℕ)
    (h : findIndex (fun s => segMatches near line s) segs = some i) :
    extendLine near (fuel + 1) line segs =
      extendLine near fuel (mergeLine near line (segs.getD i default))
        (segs.eraseIdx i) := by
  rw [extendLine, h]

/-- The remaining working list after the inner loop is a sublist of the one
it started from (segments are only ever removed). -/
lemma extendLine_snd_sublist (near : ℚ) :
    ∀ (fuel : ℕ) (line : List Vector2) (segs : List IntersectingLine),
      (extendLine near fuel line segs).2.Sublist segs := by
  intro fuel
  induction fuel with
  | zero => intro line segs; exact List.Sublist.refl _
  | succ f ih =>
    intro line segs
    rcases h : findIndex (fun s => segMatches near line s) segs with _ | i
    · rw [extendLine_none near line segs h]
    · rw [extendLine_succ_some near f line segs i h]
      exact (ih _ _).trans (List.eraseIdx_sublist segs i)

/-- Fuel sufficiency for the inner loop: any fuel at least the working-list
length produces the same result as fuel exactly the length, i.e. the loop
always finishes within `segs.length` iterations. -/
lemma extendLine_fuel_congr (near : ℚ) :
    ∀ (fuel : ℕ) (line : List Vector2) (segs : List IntersectingLine),
      segs.length ≤ fuel →
      extendLine near fuel line segs = extendLine near segs.length line segs := by
  intro fuel
  induction fuel using Nat.strong_induction_on with
  | _ fuel ih =>
    intro line segs hle
    cases fuel with
    | zero =>
      have hnil : segs = [] := List.length_eq_zero.mp (Nat.le_zero.mp hle)
      rw [hnil]
      rfl
    | succ f =>
      rcases h : findIndex (fun s => segMatches near line s) segs with _ | i
      · rw [extendLine_none near line segs h, extendLine_none near line segs h]
      · have hi := findIndex_lt_length _ segs i h
        obtain ⟨k, hk⟩ : ∃ k, segs.length = k + 1 := ⟨segs.length - 1, by omega⟩
        have her : (segs.eraseIdx i).length = k := by
          rw [List.length_eraseIdx_of_lt hi]; omega
        rw [extendLine_succ_some near f line segs i h, hk,
          extendLine_succ_some near k line segs i h]
        have h1 := ih f (by omega) (mergeLine near line (segs.getD i default))
          (segs.eraseIdx i) (by omega)
        rw [her] at h1
        exact h1

lemma stitchThreshold_none (near : ℚ) (fuel : ℕ) (segs : List IntersectingLine)
    (acc : List (List Vector2)) (h : segs.getLast? = none) :
    stitchThreshold near fuel segs acc = acc := by
  cases fuel with
  | zero => rfl
  | succ f => rw [stitchThreshold, h]

lemma stitchThreshold_succ_some (near : ℚ) (fuel : ℕ) (segs : List IntersectingLine)
    (acc : List (List Vector2)) (line : IntersectingLine) (h : segs.getLast? = some line) :
    stitchThreshold near (fuel + 1) segs acc =
      stitchThreshold near fuel
        (extendLine near segs.dropLast.length line segs.dropLast).2
        (if 5 < (extendLine near segs.dropLast.length line segs.dropLast).1.length
         then acc ++ [(extendLine near segs.dropLast.length line segs.dropLast).1]
         else acc) := by
  rw [stitchThreshold, h]

/-- Fuel sufficiency for the outer loop: fuel equal to the working-list
length always suffices, because each iteration pops one segment and the
inner loop only ever removes further segments. -/
lemma stitchThreshold_fuel_congr (near : ℚ) :
    ∀ (fuel : ℕ) (segs : List IntersectingLine) (acc : List (List Vector2)),
      segs.length ≤ fuel →
      stitchThreshold near fuel segs acc = stitchThreshold near segs.length segs acc := by
  intro fuel
  induction fuel using Nat.strong_induction_on with
  | _ fuel ih =>
    intro segs acc hle
    cases fuel with
    | zero =>
      have hnil : segs = [] := List.length_eq_zero.mp (Nat.le_zero.mp hle)
      rw [hnil]
      rfl
    | succ f =>
      rcases h : segs.getLast? with _ | line
      · rw [stitchThreshold_none near _ segs acc h, stitchThreshold_none near _ segs acc h]
      · have hne : segs ≠ [] := by
          intro hnil
          rw [hnil] at h
          exact absurd h (by simp)
        obtain ⟨k, hk⟩ : ∃ k, segs.length = k + 1 :=
          ⟨segs.length - 1, by
            have := List.length_pos.mpr hne
            omega⟩

        have hrest : segs.dropLast.length = k := by
          rw [List.length_dropLast]; omega
        have hsnd : (extendLine near segs.dropLast.length line segs.dropLast).2.length ≤ k := by
          calc (extendLine near segs.dropLast.length line segs.dropLast).2.length
              ≤ segs.dropLast.length := (extendLine_snd_sublist near _ _ _).length_le
            _ = k := hrest
        rw [stitchThreshold_succ_some near f segs acc line h, hk,
          stitchThreshold_succ_some near k segs acc line h]
        have h1 := ih f (by omega)
          (extendLine near segs.dropLast.length line segs.dropLast).2
          (if 5 < (extendLine near segs.dropLast.length line segs.dropLast).1.length
           then acc ++ [(extendLine near segs.dropLast.length line segs.dropLast).1]
           else acc) (by omega)
        have h2 := ih k (by omega)
          (extendLine near segs.dropLast.length line segs.dropLast).2
          (if 5 < (extendLine near segs.dropLast.length line segs.dropLast).1.length
           then acc ++ [(extendLine near segs.dropLast.length line segs.dropLast).1]
           else acc) hsnd
        rw [h1, h2]

/-- Every polyline the outer loop accumulates has strictly more than 5
points, provided the incoming accumulator already satisfies that. -/
lemma stitchThreshold_length_invariant (near : ℚ) :
    ∀ (fuel : ℕ) (segs : List IntersectingLine) (acc : List (List Vector2)),
      (∀ l ∈ acc, 5 < l.length) →
      ∀ l ∈ stitchThreshold near fuel segs acc, 5 < l.length := by
  intro fuel
  induction fuel with
  | zero => intro segs acc hacc; exact hacc
  | succ f ih =>
    intro segs acc hacc
    rcases h : segs.getLast? with _ | line
    · rw [stitchThreshold_none near _ segs acc h]
      exact hacc
    · rw [stitchThreshold_succ_some near f segs acc line h]
      apply ih
      intro l hl
      by_cases hlen : 5 < (extendLine near segs.dropLast.length line segs.dropLast).1.length
      · rw [if_pos hlen] at hl
        rcases List.mem_append.mp hl with hl | hl
        · exact hacc l hl
        · rw [List.mem_singleton.mp hl]
          exact hlen
      · rw [if_neg hlen] at hl
        exact hacc l hl

/-- Inverting membership in the stitcher's result map: the value list is the
result of stitching that threshold's partition group, and it is nonempty. -/
lemma connect_mem (cs : List Contour) (near th : ℚ) (lines : List (List Vector2))
    (h : (th, lines) ∈ connectContourSegments cs near) :
    ∃ segs, (th, segs) ∈ partitionByThreshold cs ∧
      lines = stitchThreshold near segs.length segs [] ∧ lines ≠ [] := by
  obtain ⟨⟨gth, gsegs⟩, hg, hsome⟩ := List.mem_filterMap.mp h
  dsimp only at hsome
  by_cases he : stitchThreshold near gsegs.length gsegs [] = []
  · rw [if_pos he] at hsome
    exact absurd hsome (by simp)
  · rw [if_neg he] at hsome
    obtain ⟨hth, hlines⟩ := Prod.mk.injEq .. ▸ Option.some.inj hsome
    subst hth
    exact ⟨gsegs, hg, hlines.symm, hlines ▸ he⟩

/-- A chain of four unit segments along the x-axis (5 points when stitched). -/
def chain4 : List Contour :=
  [⟨[⟨0, 0⟩, ⟨1, 0⟩], 0⟩, ⟨[⟨1, 0⟩, ⟨2, 0⟩], 0⟩, ⟨[⟨2, 0⟩, ⟨3, 0⟩], 0⟩,
   ⟨[⟨3, 0⟩, ⟨4, 0⟩], 0⟩]

/-- A chain of five unit segments along the x-axis (6 points when stitched). -/
def chain5 : List Contour :=
  [⟨[⟨0, 0⟩, ⟨1, 0⟩], 0⟩, ⟨[⟨1, 0⟩, ⟨2, 0⟩], 0⟩, ⟨[⟨2, 0⟩, ⟨3, 0⟩], 0⟩,
   ⟨[⟨3, 0⟩, ⟨4, 0⟩], 0⟩, ⟨[⟨4, 0⟩, ⟨5, 0⟩], 0⟩]

/-- The six-point polyline obtained by stitching `chain5`. -/
def sixPointLine : List Vector2 :=
  [⟨0, 0⟩, ⟨1, 0⟩, ⟨2, 0⟩, ⟨3, 0⟩, ⟨4, 0⟩, ⟨5, 0⟩]

/-- A stitched chain of 4 segments reaches only 5 points and is discarded:
the result map is empty. -/
lemma chain4_eval : connectContourSegments chain4 1 = [] := by
  norm_num [connectContourSegments, partitionByThreshold, addToGroup, stitchThreshold,
    extendLine, findIndex, segMatches, mergeLine, isNear, chain4, List.dropLast,
    List.getLast?]

lemma chain5_group_stitch :
    stitchThreshold 1 5
      [[⟨0, 0⟩, ⟨1, 0⟩], [⟨1, 0⟩, ⟨2, 0⟩], [⟨2, 0⟩, ⟨3, 0⟩], [⟨3, 0⟩, ⟨4, 0⟩],
       [⟨4, 0⟩, ⟨5, 0⟩]] [] = [sixPointLine] := by
  norm_num [stitchThreshold, extendLine, findIndex, segMatches, mergeLine, isNear,
    sixPointLine, List.dropLast, List.getLast?]

/-- A stitched chain of 5 segments reaches 6 points and is kept. -/
lemma chain5_eval : connectContourSegments chain5 1 = [(0, [sixPointLine])] := by
  norm_num [connectContourSegments, partitionByThreshold, addToGroup, chain5,
    List.filterMap_cons, chain5_group_stitch]

/-- Claim C1: every polyline in the stitcher's output has strictly more than
5 points; a completed chain of 4 segments (5 points) is discarded, and a
chain of 5 segments (6 points) is kept and emitted for its threshold. -/
theorem connect_output_length_gt_five :
    (∀ (cs : List Contour) (near th : ℚ) (lines : List (List Vector2)),
        (th, lines) ∈ connectContourSegments cs near → ∀ l ∈ lines, 5 < l.length) ∧
    connectContourSegments chain4 1 = [] ∧
    connectContourSegments chain5 1 = [(0, [sixPointLine])] := by
  refine ⟨?_, chain4_eval, chain5_eval⟩
  intro cs near th lines h l hl
  obtain ⟨segs, _, rfl, _⟩ := connect_mem cs near th lines h
  exact stitchThreshold_length_invariant near _ segs [] (by simp) l hl

theorem connect_output_length_gt_five_witness :
    ((0 : ℚ), [sixPointLine]) ∈ connectContourSegments chain5 1 ∧
    5 < sixPointLine.length := by
  have hm : ((0 : ℚ), [sixPointLine]) ∈ connectContourSegments chain5 1 := by
    rw [chain5_eval]
    simp
  exact ⟨hm, connect_output_length_gt_five.1 chain5 1 0 [sixPointLine] hm
    sixPointLine (by simp)⟩

/-- Merging only ever adds points of the matched segment to the line. -/
lemma mergeLine_subset (near : ℚ) (line : List Vector2) (m : IntersectingLine)
    (hm : m.length = 2) : ∀ p ∈ mergeLine near line m, p ∈ line ∨ p ∈ m := by
  intro p hp
  have h0 : m.getD 0 default ∈ m := getD_mem m 0 (by omega)
  have h1 : m.getD 1 default ∈ m := getD_mem m 1 (by omega)
  unfold mergeLine at hp
  dsimp only at hp
  split_ifs at hp
  · rcases List.mem_cons.mp hp with rfl | hp
    · exact Or.inr h1
    · exact Or.inl hp
  · rcases List.mem_cons.mp hp with rfl | hp
    · exact Or.inr h0
    · exact Or.inl hp
  · rcases List.mem_append.mp hp with hp | hp
    · exact Or.inl hp
    · exact Or.inr (List.mem_singleton.mp hp ▸ h1)
  · rcases List.mem_append.mp hp with hp | hp
    · exact Or.inl hp
    · exact Or.inr (List.mem_singleton.mp hp ▸ h0)
  · exact Or.inl hp

/-- Every point of the line produced by the inner loop comes from the seed
line or from one of the working segments. -/
lemma extendLine_fst_mem (near : ℚ) :
    ∀ (fuel : ℕ) (line : List Vector2) (segs : List IntersectingLine),
      (∀ s ∈ segs, s.length = 2) →
      ∀ p ∈ (extendLine near fuel line segs).1, p ∈ line ∨ ∃ s ∈ segs, p ∈ s := by
  intro fuel
  induction fuel with
  | zero => intro line segs _ p hp; exact Or.inl hp
  | succ f ih =>
    intro line segs hs p hp
    rcases h : findIndex (fun s => segMatches near line s) segs with _ | i
    · rw [extendLine_none near line segs h] at hp
      exact Or.inl hp
    · rw [extendLine_succ_some near f line segs i h] at hp
      have hilt := findIndex_lt_length _ segs i h
      have hmem : segs.getD i default ∈ segs := getD_mem segs i hilt
      have hm2 : (segs.getD i default).length = 2 := hs _ hmem
      have hrest : ∀ s ∈ segs.eraseIdx i, s.length = 2 :=
        fun s hsm => hs s ((List.eraseIdx_sublist segs i).subset hsm)
      rcases ih _ _ hrest p hp with hline | ⟨s, hsmem, hps⟩
      · rcases mergeLine_subset near line (segs.getD i default) hm2 p hline with h' | h'
        · exact Or.inl h'
        · exact Or.inr ⟨_, hmem, h'⟩
      · exact Or.inr ⟨s, (List.eraseIdx_sublist segs i).subset hsmem, hps⟩

/-- Every point of every polyline produced for one threshold group satisfies
any predicate satisfied by all points of that group's segments. -/
lemma stitchThreshold_mem (near : ℚ) (Q : Vector2 → Prop) :
    ∀ (fuel : ℕ) (segs : List IntersectingLine) (acc : List (List Vector2)),
      (∀ s ∈ segs, s.length = 2) →
      (∀ s ∈ segs, ∀ p ∈ s, Q p) →
      (∀ l ∈ acc, ∀ p ∈ l, Q p) →
      ∀ l ∈ stitchThreshold near fuel segs acc, ∀ p ∈ l, Q p := by
  intro fuel
  induction fuel with
  | zero => intro segs acc _ _ hacc; exact hacc
  | succ f ih =>
    intro segs acc hs hQ hacc
    rcases h : segs.getLast? with _ | line
    · rw [stitchThreshold_none near _ segs acc h]
      exact hacc
    · rw [stitchThreshold_succ_some near f segs acc line h]
      have hline : line ∈ segs := List.mem_of_mem_getLast? h
      have hrest2 : ∀ s ∈ segs.dropLast, s.length = 2 :=
        fun s hsm => hs s ((List.dropLast_sublist segs).subset hsm)
      have hrestQ : ∀ s ∈ segs.dropLast, ∀ p ∈ s, Q p :=
        fun s hsm => hQ s ((List.dropLast_sublist segs).subset hsm)
      have hsnd := extendLine_snd_sublist near segs.dropLast.length line segs.dropLast
      apply ih
      · exact fun s hsm => hrest2 s (hsnd.subset hsm)
      · exact fun s hsm => hrestQ s (hsnd.subset hsm)
      · intro l hl p hp
        by_cases hlen :
            5 < (extendLine near segs.dropLast.length line segs.dropLast).1.length
        · rw [if_pos hlen] at hl
          rcases List.mem_append.mp hl with hl | hl
          · exact hacc l hl p hp
          · rw [List.mem_singleton.mp hl] at hp
            rcases extendLine_fst_mem near _ line segs.dropLast hrest2 p hp with
              hp' | ⟨s, hsm, hps⟩
            · exact hQ line hline p hp'
            · exact hrestQ s hsm p hps
        · rw [if_neg hlen] at hl
          exact hacc l hl p hp

/-- Adding a segment to its threshold group preserves a per-group predicate,
provided the new segment satisfies it for its own threshold. -/
lemma addToGroup_pred (Q : ℚ → IntersectingLine → Prop) (th : ℚ)
    (s : IntersectingLine) (hs : Q th s) :
    ∀ m : List (ℚ × List IntersectingLine),
      (∀ th' v, (th', v) ∈ m → ∀ x ∈ v, Q th' x) →
      ∀ th' v, (th', v) ∈ addToGroup m th s → ∀ x ∈ v, Q th' x := by
  intro m
  induction m with
  | nil =>
    intro _ th' v hv x hx
    rw [addToGroup] at hv
    obtain ⟨h1, h2⟩ := Prod.mk.injEq .. ▸ List.mem_singleton.mp hv
    subst h1
    subst h2
    rw [List.mem_singleton.mp hx]
    exact hs
  | cons kv rest ih =>
    obtain ⟨k, w⟩ := kv
    intro hm th' v hv x hx
    rw [addToGroup] at hv
    by_cases hk : k = th
    · rw [if_pos hk] at hv
      rcases List.mem_cons.mp hv with heq | hv'
      · obtain ⟨h1, h2⟩ := Prod.mk.injEq .. ▸ heq
        subst h1
        subst h2
        rcases List.mem_append.mp hx with hx | hx
        · exact hm th' w (by simp) x hx
        · rw [List.mem_singleton.mp hx, hk]
          exact hs
      · exact hm th' v (by simp [hv']) x hx
    · rw [if_neg hk] at hv
      rcases List.mem_cons.mp hv with heq | hv'
      · obtain ⟨h1, h2⟩ := Prod.mk.injEq .. ▸ heq
        subst h1
        subst h2
        exact hm th' v (by simp) x hx
      · exact ih (fun th'' v' hv'' => hm th'' v' (by simp [hv''])) th' v hv' x hx

/-- Every segment of every group of the threshold partition satisfies any
predicate satisfied by each contour for its own threshold. -/
lemma partition_pred (Q : ℚ → IntersectingLine → Prop) :
    ∀ (cs : List Contour) (m : List (ℚ × List IntersectingLine)),
      (∀ th v, (th, v) ∈ m → ∀ x ∈ v, Q th x) →
      (∀ c ∈ cs, Q c.threshold c.line) →
      ∀ th v, (th, v) ∈ cs.foldl (fun m c => addToGroup m c.threshold c.line) m →
        ∀ x ∈ v, Q th x := by
  intro cs
  induction cs with
  | nil => intro m hm _; exact hm
  | cons c rest ih =>
    intro m hm hcs
    rw [List.foldl_cons]
    exact ih _ (addToGroup_pred Q c.threshold c.line (hcs c (by simp)) m hm)
      (fun c' hc' => hcs c' (by simp [hc']))

/-- Claim C4: stitching never joins segments across thresholds — every point
of every polyline emitted for threshold `th` comes from a segment tagged
`th`, because segments are partitioned by threshold before any joining. -/
theorem connect_threshold_isolation (cs : List Contour) (near : ℚ)
    (h2 : ∀ c ∈ cs, c.line.length = 2) :
    ∀ th lines, (th, lines) ∈ connectContourSegments cs near →
      ∀ l ∈ lines, ∀ p ∈ l, ∃ c ∈ cs, c.threshold = th ∧ p ∈ c.line := by
  intro th lines h l hl p hp
  obtain ⟨segs, hseg, rfl, _⟩ := connect_mem cs near th lines h
  have hlen : ∀ s ∈ segs, s.length = 2 :=
    partition_pred (fun _ s => s.length = 2) cs [] (by simp) h2 th segs hseg
  have hprov : ∀ s ∈ segs, ∃ c ∈ cs, c.threshold = th ∧ c.line = s :=
    partition_pred (fun th' s => ∃ c ∈ cs, c.threshold = th' ∧ c.line = s) cs []
      (by simp) (fun c hc => ⟨c, hc, rfl, rfl⟩) th segs hseg
  apply stitchThreshold_mem near (fun q => ∃ c ∈ cs, c.threshold = th ∧ q ∈ c.line)
    segs.length segs [] hlen ?_ (by simp) l hl p hp
  intro s hsm q hqs
  obtain ⟨c, hc, hth, hline⟩ := hprov s hsm
  exact ⟨c, hc, hth, hline ▸ hqs⟩

theorem connect_threshold_isolation_witness :
    ∃ c ∈ chain5, c.threshold = 0 ∧ (⟨0, 0⟩ : Vector2) ∈ c.line := by
  apply connect_threshold_isolation chain5 1 (by simp [chain5]) 0 [sixPointLine]
    ?_ sixPointLine (by simp) ⟨0, 0⟩ (by simp [sixPointLine])
  rw [chain5_eval]
  simp

/-- Claim C9: the stitching loops are well-founded on the size of the
working list — a matched inner iteration removes exactly one segment, an
unmatched one completes the line, fuel equal to the working-list length is
always sufficient for the inner loop, and likewise for the outer loop, so
the whole pipeline terminates on every finite input. -/
theorem connect_terminates :
    (∀ (near : ℚ) (line : List Vector2) (segs : List IntersectingLine) (i : ℕ),
        findIndex (fun s => segMatches near line s) segs = some i →
        segs.length = (segs.eraseIdx i).length + 1) ∧
    (∀ (near : ℚ) (line : List Vector2) (segs : List IntersectingLine),
        findIndex (fun s => segMatches near line s) segs = none →
        ∀ fuel, extendLine near fuel line segs = (line, segs)) ∧
    (∀ (near : ℚ) (fuel : ℕ) (line : List Vector2) (segs : List IntersectingLine),
        segs.length ≤ fuel →
        extendLine near fuel line segs = extendLine near segs.length line segs) ∧
    (∀ (near : ℚ) (fuel : ℕ) (segs : List IntersectingLine)
        (acc : List (List Vector2)), segs.length ≤ fuel →
        stitchThreshold near fuel segs acc = stitchThreshold near segs.length segs acc) := by
  refine ⟨?_, ?_, ?_, ?_⟩
  · intro near line segs i h
    have hi := findIndex_lt_length _ segs i h
    rw [List.length_eraseIdx_of_lt hi]
    omega
  · exact fun near line segs h => extendLine_none near line segs h
  · exact fun near => extendLine_fuel_congr near
  · exact fun near => stitchThreshold_fuel_congr near

theorem connect_terminates_witness :
    ([[⟨0, 0⟩, ⟨1, 0⟩]] : List IntersectingLine).length =
      (([[⟨0, 0⟩, ⟨1, 0⟩]] : List IntersectingLine).eraseIdx 0).length + 1 :=
  connect_terminates.1 1 [⟨1, 0⟩, ⟨2, 0⟩] [[⟨0, 0⟩, ⟨1, 0⟩]] 0
    (by norm_num [findIndex, segMatches, isNear])

lemma isNear_nonpos (p1 p2 : Vector2) (near : ℚ) (h : near ≤ 0) :
    isNear p1 p2 near = false := by
  unfold isNear
  exact decide_eq_false (fun hc => absurd hc.1 (not_lt.mpr h))

/-- With non-positive nearness no segment ever matches, so every seed line
stays at its 2 points and is discarded: stitching returns the accumulator. -/
lemma stitchThreshold_nonpos (near : ℚ) (h : near ≤ 0) :
    ∀ (fuel : ℕ) (segs : List IntersectingLine) (acc : List (List Vector2)),
      (∀ s ∈ segs, s.length = 2) →
      stitchThreshold near fuel segs acc = acc := by
  intro fuel
  induction fuel with
  | zero => intro segs acc _; rfl
  | succ f ih =>
    intro segs acc hs
    rcases hL : segs.getLast? with _ | line
    · exact stitchThreshold_none near _ segs acc hL
    · rw [stitchThreshold_succ_some near f segs acc line hL]
      have hnone : findIndex (fun s => segMatches near line s) segs.dropLast = none :=
        findIndex_none_of_all _ _
          (fun s _ => by simp [segMatches, isNear_nonpos _ _ near h])
      rw [extendLine_none near line segs.dropLast hnone]
      have hlen : line.length = 2 := hs line (List.mem_of_mem_getLast? hL)
      rw [if_neg (by simp [hlen])]
      exact ih segs.dropLast acc
        (fun s hsm => hs s ((List.dropLast_sublist segs).subset hsm))

lemma calcContour_mem (th : ℚ) (tin : List Triangle3) (c : Contour) :
    c ∈ calcContour th tin ↔ ∃ tr ∈ tin, contourLine tr th = some c := by
  simp [calcContour]

lemma contourLine_line_length (t : Triangle3) (th : ℚ) (c : Contour)
    (h : contourLine t th = some c) : c.line.length = 2 := by
  obtain ⟨vMin, vA, vB, _, _, _, _, _, _, hc⟩ := contourLine_branches t th c h
  rw [hc]
  rfl

/-- Every segment produced by the triangle-intersection phase has exactly
2 points. -/
lemma pipeline_lines_length (ts : List ℚ) (tin : List Triangle3) :
    ∀ c ∈ ts.flatMap (fun th => calcContour th tin), c.line.length = 2 := by
  intro c hc
  obtain ⟨th, _, hcc⟩ := List.mem_flatMap.mp hc
  obtain ⟨tr, _, hline⟩ := (calcContour_mem th tin c).mp hcc
  exact contourLine_line_length tr th c hline

/-- With non-positive nearness and well-formed (2-point) segments, the
stitcher's whole result map is empty. -/
lemma connect_nonpos_nil (cs : List Contour) (near : ℚ) (h : near ≤ 0)
    (h2 : ∀ c ∈ cs, c.line.length = 2) : connectContourSegments cs near = [] := by
  unfold connectContourSegments
  apply List.filterMap_eq_nil_iff.mpr
  intro g hg
  obtain ⟨gth, gsegs⟩ := g
  have hlen : ∀ s ∈ gsegs, s.length = 2 :=
    partition_pred (fun _ s => s.length = 2) cs [] (by simp) h2 gth gsegs hg
  dsimp only
  rw [stitchThreshold_nonpos near h _ gsegs [] hlen]
  simp

/-- Claim C10: with a non-positive nearness threshold the strict distance
comparison never succeeds, every seeded line stays at its original 2 points,
and the strictly-more-than-5-points filter discards everything, so
`contoursFromTIN` returns the empty map. -/
theorem contoursFromTIN_nonpositive_nearness (tin : List Triangle3) (tc : ℤ)
    (htc : 0 ≤ tc) (zMin zMax near : ℚ) (h : near ≤ 0) :
    contoursFromTIN tin tc zMin zMax near = .ok [] := by
  rw [contoursFromTIN_ok tin tc htc zMin zMax near,
    connect_nonpos_nil _ near h (pipeline_lines_length _ tin)]

theorem contoursFromTIN_nonpositive_nearness_witness :
    contoursFromTIN [workedTriangle] 3 0 10 0 = .ok [] :=
  contoursFromTIN_nonpositive_nearness [workedTriangle] 3 (by norm_num) 0 10 0 le_rfl

lemma contourLine_threshold (t : Triangle3) (th : ℚ) (c : Contour)
    (h : contourLine t th = some c) : c.threshold = th := by
  obtain ⟨vMin, vA, vB, _, _, _, _, _, _, hc⟩ := contourLine_branches t th c h
  rw [hc]

lemma calcContour_threshold (th : ℚ) (tin : List Triangle3) :
    ∀ c ∈ calcContour th tin, c.threshold = th := by
  intro c hc
  obtain ⟨tr, _, h⟩ := (calcContour_mem th tin c).mp hc
  exact contourLine_threshold tr th c h

lemma contourLine_none_of_all_below (t : Triangle3) (th : ℚ)
    (h : ∀ v ∈ vertices t, v.z < th) : contourLine t th = none := by
  rw [contourLine, if_pos (Or.inl ((aboveOf_length_eq_zero_iff t th).mpr h))]

lemma contourLine_none_of_all_above (t : Triangle3) (th : ℚ)
    (h : ∀ v ∈ vertices t, th < v.z) : contourLine t th = none := by
  rw [contourLine,
    if_pos (Or.inr ((belowOf_length_eq_zero_iff t th).mpr (fun v hv => (h v hv).le)))]

/-- Key bookkeeping for one partitioning step: an existing key keeps the key
list unchanged, a new key is appended at the end. -/
lemma addToGroup_keys (m : List (ℚ × List IntersectingLine)) (th : ℚ)
    (s : IntersectingLine) :
    (addToGroup m th s).map Prod.fst =
      if th ∈ m.map Prod.fst then m.map Prod.fst else m.map Prod.fst ++ [th] := by
  induction m with
  | nil => simp [addToGroup]
  | cons kv rest ih =>
    obtain ⟨k, w⟩ := kv
    rw [addToGroup]
    by_cases hk : k = th
    · subst hk
      rw [if_pos rfl]
      simp
    · rw [if_neg hk]
      simp only [List.map_cons]
      rw [ih]
      by_cases hth : th ∈ rest.map Prod.fst
      · rw [if_pos hth, if_pos (by simp [hth])]
      · rw [if_neg hth, if_neg (by simp [hth, Ne.symm hk])]
        simp

/-- Folding a block of contours that all carry threshold `th` into a map
whose key list already contains `th` leaves the key list unchanged. -/
lemma foldl_block_keys_mem (th : ℚ) :
    ∀ (block : List Contour), (∀ c ∈ block, c.threshold = th) →
      ∀ m : List (ℚ × List IntersectingLine), th ∈ m.map Prod.fst →
        ((block.foldl (fun m c => addToGroup m c.threshold c.line) m).map Prod.fst) =
          m.map Prod.fst := by
  intro block
  induction block with
  | nil => intro _ m _; rfl
  | cons c rest ih =>
    intro hall m hmem
    rw [List.foldl_cons]
    have hcth : c.threshold = th := hall c (by simp)
    have hk := addToGroup_keys m c.threshold c.line
    rw [if_pos (hcth ▸ hmem)] at hk
    rw [ih (fun c' h' => hall c' (by simp [h'])) _ (hk ▸ hmem), hk]

/-- Folding a block of contours that all carry threshold `th` either leaves
the key list unchanged or appends exactly `[th]` at the end. -/
lemma foldl_block_keys (th : ℚ) :
    ∀ (block : List Contour), (∀ c ∈ block, c.threshold = th) →
      ∀ m : List (ℚ × List IntersectingLine),
        ((block.foldl (fun m c => addToGroup m c.threshold c.line) m).map Prod.fst) =
            m.map Prod.fst ∨
        ((block.foldl (fun m c => addToGroup m c.threshold c.line) m).map Prod.fst) =
            m.map Prod.fst ++ [th] := by
  intro block
  cases block with
  | nil => intro _ m; exact Or.inl rfl
  | cons c rest =>
    intro hall m
    rw [List.foldl_cons]
    have hcth : c.threshold = th := hall c (by simp)
    have hk := addToGroup_keys m c.threshold c.line
    by_cases hmem : th ∈ m.map Prod.fst
    · rw [if_pos (hcth ▸ hmem)] at hk
      rw [foldl_block_keys_mem th rest (fun c' h' => hall c' (by simp [h'])) _
        (hk ▸ hmem), hk]
      exact Or.inl rfl
    · rw [if_neg (by rw [hcth]; exact hmem)] at hk
      rw [foldl_block_keys_mem th rest (fun c' h' => hall c' (by simp [h'])) _
        (by rw [hk, hcth]; simp), hk, hcth]
      exact Or.inr rfl

/-- The key list produced by partitioning the flat-mapped segment collection
is a sublist of the generating threshold sequence (prefixed by whatever keys
the accumulator already has). -/
lemma flatMap_keys_sublist (tin : List Triangle3) :
    ∀ (ts : List ℚ) (m : List (ℚ × List IntersectingLine)),
      (((ts.flatMap (fun th => calcContour th tin)).foldl
          (fun m c => addToGroup m c.threshold c.line) m).map Prod.fst).Sublist
        (m.map Prod.fst ++ ts) := by
  intro ts
  induction ts with
  | nil => intro m; simp
  | cons th rest ih =>
    intro m
    rw [List.flatMap_cons, List.foldl_append]
    rcases foldl_block_keys th (calcContour th tin) (calcContour_threshold th tin) m
      with h | h
    · refine (ih _).trans ?_
      rw [h]
      exact (List.append_sublist_append_left _).mpr (List.sublist_cons_self th rest)
    · have heq : ((calcContour th tin).foldl
          (fun m c => addToGroup m c.threshold c.line) m).map Prod.fst ++ rest =
          m.map Prod.fst ++ th :: rest := by
        rw [h, List.append_assoc]
        rfl
      exact heq ▸ ih _

/-- A key of the partition map comes from some contour with that threshold. -/
lemma keys_foldl_mem :
    ∀ (cs : List Contour) (m : List (ℚ × List IntersectingLine)) (th : ℚ),
      th ∈ ((cs.foldl (fun m c => addToGroup m c.threshold c.line) m).map Prod.fst) →
      th ∈ m.map Prod.fst ∨ ∃ c ∈ cs, c.threshold = th := by
  intro cs
  induction cs with
  | nil => intro m th h; exact Or.inl h
  | cons c rest ih =>
    intro m th h
    rw [List.foldl_cons] at h
    rcases ih _ th h with h' | ⟨c', hc', hth⟩
    · rw [addToGroup_keys] at h'
      by_cases hmem : c.threshold ∈ m.map Prod.fst
      · rw [if_pos hmem] at h'
        exact Or.inl h'
      · rw [if_neg hmem] at h'
        rcases List.mem_append.mp h' with h' | h'
        · exact Or.inl h'
        · exact Or.inr ⟨c, by simp, (List.mem_singleton.mp h').symm⟩
    · exact Or.inr ⟨c', by simp [hc'], hth⟩

/-- Filtering the group map with a key-preserving partial function yields a
key list that is a sublist of the original key list. -/
lemma filterMap_keys_sublist {α β : Type} (f : ℚ × α → Option (ℚ × β))
    (hf : ∀ x y, f x = some y → y.1 = x.1) :
    ∀ l : List (ℚ × α), ((l.filterMap f).map Prod.fst).Sublist (l.map Prod.fst) := by
  intro l
  induction l with
  | nil => simp
  | cons x rest ih =>
    rw [List.filterMap_cons]
    rcases hx : f x with _ | y
    · exact ih.trans (List.sublist_cons_self _ _)
    · rw [List.map_cons, List.map_cons, hf x y hx]
      exact ih.cons₂ _

/-- Inverting a successful `contoursFromTIN` run. -/
lemma contoursFromTIN_ok_inv (tin : List Triangle3) (tc : ℤ) (zMin zMax near : ℚ)
    (r : List (ℚ × List (List Vector2)))
    (h : contoursFromTIN tin tc zMin zMax near = .ok r) :
    0 ≤ tc ∧ r = connectContourSegments
      ((thresholdsOf tc zMin zMax).flatMap (fun th => calcContour th tin)) near := by
  by_cases htc : tc < 0
  · rw [contoursFromTIN, array, if_pos htc] at h
    exact absurd h (by simp)
  · rw [contoursFromTIN_ok tin tc (not_lt.mp htc) zMin zMax near] at h
    exact ⟨not_lt.mp htc, (Except.ok.inj h).symm⟩

/-- Claim C6: in a successful `contoursFromTIN` result, keys appear in
threshold-generation order (the key list is a sublist of the generated
threshold sequence), no key carries an empty polyline list, and a threshold
strictly above every vertex height (or strictly below every vertex height)
is absent from the map. -/
theorem contoursFromTIN_map_spec (tin : List Triangle3) (tc : ℤ) (zMin zMax near : ℚ)
    (r : List (ℚ × List (List Vector2)))
    (h : contoursFromTIN tin tc zMin zMax near = .ok r) :
    ((r.map Prod.fst).Sublist (thresholdsOf tc zMin zMax)) ∧
    (∀ th lines, (th, lines) ∈ r → lines ≠ []) ∧
    (∀ th : ℚ, (∀ tr ∈ tin, ∀ v ∈ vertices tr, v.z < th) → th ∉ r.map Prod.fst) ∧
    (∀ th : ℚ, (∀ tr ∈ tin, ∀ v ∈ vertices tr, th < v.z) → th ∉ r.map Prod.fst) := by
  obtain ⟨htc, rfl⟩ := contoursFromTIN_ok_inv tin tc zMin zMax near r h
  set cs := (thresholdsOf tc zMin zMax).flatMap (fun th => calcContour th tin) with hcs
  have hg : ∀ (x : ℚ × List IntersectingLine) (y : ℚ × List (List Vector2)),
      (fun g : ℚ × List IntersectingLine =>
        let ls := stitchThreshold near g.2.length g.2 []
        if ls = [] then none else some (g.1, ls)) x = some y → y.1 = x.1 := by
    intro x y hxy
    dsimp only at hxy
    by_cases he : stitchThreshold near x.2.length x.2 [] = []
    · rw [if_pos he] at hxy
      exact absurd hxy (by simp)
    · rw [if_neg he] at hxy
      rw [← Option.some.inj hxy]
  have hkeys : ((connectContourSegments cs near).map Prod.fst).Sublist
      ((partitionByThreshold cs).map Prod.fst) :=
    filterMap_keys_sublist _ hg (partitionByThreshold cs)
  have hkeys2 : ((partitionByThreshold cs).map Prod.fst).Sublist
      (thresholdsOf tc zMin zMax) := by
    have hsub := flatMap_keys_sublist tin (thresholdsOf tc zMin zMax) []
    simpa [partitionByThreshold, hcs] using hsub
  refine ⟨hkeys.trans hkeys2, ?_, ?_, ?_⟩
  · intro th lines hm
    obtain ⟨_, _, _, hne⟩ := connect_mem cs near th lines hm
    exact hne
  · intro th hall hmem
    have hmem' : th ∈ (partitionByThreshold cs).map Prod.fst := hkeys.subset hmem
    rcases keys_foldl_mem cs [] th hmem' with h' | ⟨c, hc, hth⟩
    · simp at h'
    · obtain ⟨th', _, hcc⟩ := List.mem_flatMap.mp hc
      obtain ⟨tr, htr, hline⟩ := (calcContour_mem th' tin c).mp hcc
      have heq : th' = th := (contourLine_threshold tr th' c hline).symm.trans hth
      subst heq
      rw [contourLine_none_of_all_below tr th' (hall tr htr)] at hline
      exact absurd hline (by simp)
  · intro th hall hmem
    have hmem' : th ∈ (partitionByThreshold cs).map Prod.fst := hkeys.subset hmem
    rcases keys_foldl_mem cs [] th hmem' with h' | ⟨c, hc, hth⟩
    · simp at h'
    · obtain ⟨th', _, hcc⟩ := List.mem_flatMap.mp hc
      obtain ⟨tr, htr, hline⟩ := (calcContour_mem th' tin c).mp hcc
      have heq : th' = th := (contourLine_threshold tr th' c hline).symm.trans hth
      subst heq
      rw [contourLine_none_of_all_above tr th' (hall tr htr)] at hline
      exact absurd hline (by simp)

lemma outOfRange_eval : contoursFromTIN [workedTriangle] 1 20 20 1 = .ok [] := by
  rw [contoursFromTIN_ok _ 1 (by norm_num) _ _ _]
  have hnone : contourLine workedTriangle 20 = none :=
    contourLine_none_of_all_below workedTriangle 20
      (by norm_num [vertices, workedTriangle])
  norm_num [thresholdsOf, jsmap, List.range_succ, calcContour, hnone,
    connectContourSegments, partitionByThreshold]

theorem contoursFromTIN_map_spec_witness :
    contoursFromTIN [workedTriangle] 1 20 20 1 = .ok [] ∧
    (20 : ℚ) ∉ (([] : List (ℚ × List (List Vector2))).map Prod.fst) :=
  ⟨outOfRange_eval,
   (contoursFromTIN_map_spec [workedTriangle] 1 20 20 1 [] outOfRange_eval).2.2.1 20
     (by norm_num [vertices, workedTriangle])⟩

end Salamivg
